import Mathlib

/-!
Verification development for the Deltran payment gateway core.

Python floats on money paths are modelled as exact rationals (`ℚ`); the
risk-metrics aggregation, whose source computes a square root, is modelled
over the reals (`ℝ`).  Python dicts are modelled as association lists that
preserve insertion order, matching CPython's dict semantics.
-/

/-- Settlement instruction attached to an emitted net position
(`src/gateway/api/settlement.py`, `_calculate_net_positions`). -/
inductive Instr
  | PAY
  | RECEIVE
deriving DecidableEq, Repr

/-- One row of the candidate set handed to `_calculate_net_positions`:
debtor account, creditor account, currency, amount. -/
structure Txn where
  debtor : String
  creditor : String
  currency : String
  amount : ℚ
deriving DecidableEq, Repr

/-- A value of the `positions` dict in `_calculate_net_positions`:
`{"account": ..., "currency": ..., "amount": ...}`. -/
structure PosEntry where
  account : String
  currency : String
  amount : ℚ
deriving DecidableEq, Repr

/-- An emitted net position. -/
structure NetPosition where
  account : String
  currency : String
  amount : ℚ
  settlement_instruction : Instr
deriving DecidableEq, Repr

/-- Update the `positions` dict at string key `key`: if absent, create the
entry `{"account": acct, "currency": cur, "amount": 0}` (then add `d`);
if present, add `d` to its amount in place.  Insertion order is preserved,
as for a CPython dict. -/
def updPos : List (String × PosEntry) → String → String → String → ℚ → List (String × PosEntry)
  | [], key, acct, cur, d => [(key, ⟨acct, cur, d⟩)]
  | (k, e) :: rest, key, acct, cur, d =>
      if k = key then (k, ⟨e.account, e.currency, e.amount + d⟩) :: rest
      else (k, e) :: updPos rest key acct cur d

/-- The loop body of `_calculate_net_positions`: debtor position `-= amount`
at key `f"{debtor}:{currency}"`, creditor position `+= amount` at key
`f"{creditor}:{currency}"`. -/
def applyTxn (m : List (String × PosEntry)) (t : Txn) : List (String × PosEntry) :=
  updPos (updPos m (t.debtor ++ ":" ++ t.currency) t.debtor t.currency (-t.amount))
    (t.creditor ++ ":" ++ t.currency) t.creditor t.currency t.amount

/-- The accumulated `positions` dict after the first loop of
`_calculate_net_positions`. -/
def accPositions (txns : List Txn) : List (String × PosEntry) :=
  txns.foldl applyTxn []

/-- Python's `abs` on a rational. -/
def pyAbs (q : ℚ) : ℚ := if q < 0 then -q else q

/-- The second loop's body: emit the position when `abs(amount) > 0.01`,
with `settlement_instruction = "PAY" if amount < 0 else "RECEIVE"` and the
absolute value as the output amount. -/
def emitPos (e : PosEntry) : Option NetPosition :=
  if 1/100 < pyAbs e.amount then
    some ⟨e.account, e.currency, pyAbs e.amount, if e.amount < 0 then .PAY else .RECEIVE⟩
  else none

/-- `_calculate_net_positions` (`src/gateway/api/settlement.py`). -/
def calculateNetPositions (txns : List Txn) : List NetPosition :=
  (accPositions txns).filterMap (fun p => emitPos p.2)


/-- Association-list lookup in the `positions` dict. -/
def findPos : List (String × PosEntry) → String → Option PosEntry
  | [], _ => none
  | (k, e) :: rest, key => if k = key then some e else findPos rest key

/-- The accumulated signed amount stored under a key (0 when absent). -/
def valAt (m : List (String × PosEntry)) (key : String) : ℚ :=
  match findPos m key with
  | some e => e.amount
  | none => 0

/-- Reference net value, written from the specification text: starting from a
zero map over `(account, currency)`, each payment subtracts its amount at the
debtor key and adds it at the creditor key. -/
def specNetValue (txns : List Txn) (a c : String) : ℚ :=
  (txns.map fun t =>
    (if a = t.creditor ∧ c = t.currency then t.amount else 0)
      - (if a = t.debtor ∧ c = t.currency then t.amount else 0)).sum

/-- Every stored entry is keyed by `account ++ ":" ++ currency`. -/
def wfKeys (m : List (String × PosEntry)) : Prop :=
  ∀ p ∈ m, p.1 = p.2.account ++ ":" ++ p.2.currency

/-- Every stored entry carries a 3-letter currency code. -/
def wfLen (m : List (String × PosEntry)) : Prop :=
  ∀ p ∈ m, p.2.currency.length = 3

theorem key_inj {a c a' c' : String} (hc : c.length = 3) (hc' : c'.length = 3)
    (h : a ++ ":" ++ c = a' ++ ":" ++ c') : a = a' ∧ c = c' := by
  have hd : a.data ++ (':' :: c.data) = a'.data ++ (':' :: c'.data) := by
    have := congrArg String.data h
    simpa [String.data_append] using this
  have hlen : (':' :: c.data).length = (':' :: c'.data).length := by
    have hc1 : c.data.length = 3 := hc
    have hc2 : c'.data.length = 3 := hc'
    simp [hc1, hc2]
  have hlen' : a.data.length = a'.data.length := by
    have hlt := congrArg List.length hd
    rw [List.length_append, List.length_append] at hlt
    have hc1 : c.data.length = 3 := hc
    have hc2 : c'.data.length = 3 := hc'
    simp only [List.length_cons] at hlt
    omega
  obtain ⟨h1, h2⟩ := List.append_inj hd hlen'
  have h2' : c.data = c'.data := by simpa using h2
  constructor
  · cases a; cases a'; exact congrArg String.mk h1
  · cases c; cases c'; exact congrArg String.mk h2' 

theorem findPos_updPos_self (m : List (String × PosEntry)) (key acct cur : String) (d : ℚ) :
    findPos (updPos m key acct cur d) key =
      some (match findPos m key with
            | some e => ⟨e.account, e.currency, e.amount + d⟩
            | none => ⟨acct, cur, d⟩) := by
  induction m with
  | nil => simp [updPos, findPos]
  | cons p rest ih =>
      obtain ⟨k, e⟩ := p
      by_cases hk : k = key
      · simp [updPos, findPos, hk]
      · simp [updPos, findPos, hk, ih]

theorem findPos_updPos_ne (m : List (String × PosEntry)) (key acct cur k' : String) (d : ℚ)
    (h : k' ≠ key) :
    findPos (updPos m key acct cur d) k' = findPos m k' := by
  have h' : key ≠ k' := Ne.symm h
  induction m with
  | nil => simp [updPos, findPos, h']
  | cons p rest ih =>
      obtain ⟨k, e⟩ := p
      by_cases hk : k = key
      · subst hk
        simp [updPos, findPos, h']
      · by_cases hk' : k = k'
        · simp [updPos, findPos, hk, hk', h]
        · simp [updPos, findPos, hk, hk', ih]

theorem findPos_eq_none_iff (m : List (String × PosEntry)) (k : String) :
    findPos m k = none ↔ k ∉ m.map Prod.fst := by
  induction m with
  | nil => simp [findPos]
  | cons p rest ih =>
      obtain ⟨k', e⟩ := p
      by_cases h : k' = k
      · simp [findPos, h]
      · simp [findPos, h, ih, Ne.symm h]

theorem keys_updPos (m : List (String × PosEntry)) (key acct cur : String) (d : ℚ) :
    (updPos m key acct cur d).map Prod.fst =
      if key ∈ m.map Prod.fst then m.map Prod.fst else m.map Prod.fst ++ [key] := by
  induction m with
  | nil => simp [updPos]
  | cons p rest ih =>
      obtain ⟨k, e⟩ := p
      by_cases h : k = key
      · simp [updPos, h]
      · simp [updPos, h, ih, Ne.symm h]
        by_cases hmem : key ∈ rest.map Prod.fst <;> simp [hmem, Ne.symm h]

theorem nodupKeys_updPos (m : List (String × PosEntry)) (key acct cur : String) (d : ℚ)
    (h : (m.map Prod.fst).Nodup) : ((updPos m key acct cur d).map Prod.fst).Nodup := by
  rw [keys_updPos]
  by_cases hmem : key ∈ m.map Prod.fst
  · simpa [hmem] using h
  · simp only [hmem, if_false]
    simp [List.nodup_append, h, hmem]

theorem wfKeys_updPos (m : List (String × PosEntry)) (acct cur : String) (d : ℚ)
    (h : wfKeys m) : wfKeys (updPos m (acct ++ ":" ++ cur) acct cur d) := by
  induction m with
  | nil => intro p hp; simp [updPos] at hp; subst hp; rfl
  | cons q rest ih =>
      obtain ⟨k, e⟩ := q
      have hrest : wfKeys rest := fun p hp => h p (List.mem_cons_of_mem _ hp)
      have hhead := h (k, e) (List.mem_cons_self _ _)
      by_cases hk : k = acct ++ ":" ++ cur
      · intro p hp
        simp [updPos, hk] at hp
        rcases hp with hp | hp
        · subst hp; exact hk.symm.trans hhead
        · exact hrest p hp
      · intro p hp
        simp [updPos, hk] at hp
        rcases hp with hp | hp
        · subst hp; exact hhead
        · exact ih hrest p hp

theorem wfLen_updPos (m : List (String × PosEntry)) (key acct cur : String) (d : ℚ)
    (h : wfLen m) (hcur : cur.length = 3) : wfLen (updPos m key acct cur d) := by
  induction m with
  | nil => intro p hp; simp [updPos] at hp; subst hp; exact hcur
  | cons q rest ih =>
      obtain ⟨k, e⟩ := q
      have hrest : wfLen rest := fun p hp => h p (List.mem_cons_of_mem _ hp)
      have hhead := h (k, e) (List.mem_cons_self _ _)
      by_cases hk : k = key
      · intro p hp
        simp [updPos, hk] at hp
        rcases hp with hp | hp
        · subst hp; simpa using hhead
        · exact hrest p hp
      · intro p hp
        simp [updPos, hk] at hp
        rcases hp with hp | hp
        · subst hp; exact hhead
        · exact ih hrest p hp

theorem valAt_updPos (m : List (String × PosEntry)) (key acct cur k' : String) (d : ℚ) :
    valAt (updPos m key acct cur d) k' = valAt m k' + (if k' = key then d else 0) := by
  by_cases h : k' = key
  · subst h
    rw [valAt, findPos_updPos_self]
    cases hf : findPos m k' <;> simp [valAt, hf]
  · simp [valAt, findPos_updPos_ne m key acct cur k' d h, h]

theorem key_eq_iff {a c a' c' : String} (hc : c.length = 3) (hc' : c'.length = 3) :
    a ++ ":" ++ c = a' ++ ":" ++ c' ↔ (a = a' ∧ c = c') := by
  constructor
  · exact key_inj hc hc'
  · rintro ⟨rfl, rfl⟩; rfl

theorem wfKeys_applyTxn (m : List (String × PosEntry)) (t : Txn) (h : wfKeys m) :
    wfKeys (applyTxn m t) :=
  wfKeys_updPos _ _ _ _ (wfKeys_updPos _ _ _ _ h)

theorem wfLen_applyTxn (m : List (String × PosEntry)) (t : Txn) (h : wfLen m)
    (ht : t.currency.length = 3) : wfLen (applyTxn m t) :=
  wfLen_updPos _ _ _ _ _ (wfLen_updPos _ _ _ _ _ h ht) ht

theorem nodupKeys_applyTxn (m : List (String × PosEntry)) (t : Txn)
    (h : (m.map Prod.fst).Nodup) : ((applyTxn m t).map Prod.fst).Nodup :=
  nodupKeys_updPos _ _ _ _ _ (nodupKeys_updPos _ _ _ _ _ h)

theorem wfKeys_foldl (txns : List Txn) :
    ∀ m, wfKeys m → wfKeys (List.foldl applyTxn m txns) := by
  induction txns with
  | nil => intro m h; exact h
  | cons t ts ih => intro m h; exact ih _ (wfKeys_applyTxn m t h)

theorem wfLen_foldl (txns : List Txn) (h3 : ∀ t ∈ txns, t.currency.length = 3) :
    ∀ m, wfLen m → wfLen (List.foldl applyTxn m txns) := by
  induction txns with
  | nil => intro m h; exact h
  | cons t ts ih =>
      intro m h
      exact ih (fun u hu => h3 u (List.mem_cons_of_mem _ hu)) _
        (wfLen_applyTxn m t h (h3 t (List.mem_cons_self _ _)))

theorem nodupKeys_foldl (txns : List Txn) :
    ∀ m, (m.map Prod.fst).Nodup → ((List.foldl applyTxn m txns).map Prod.fst).Nodup := by
  induction txns with
  | nil => intro m h; exact h
  | cons t ts ih => intro m h; exact ih _ (nodupKeys_applyTxn m t h)

theorem wfKeys_accPositions (txns : List Txn) : wfKeys (accPositions txns) :=
  wfKeys_foldl txns [] (by intro p hp; simp at hp)

theorem wfLen_accPositions (txns : List Txn) (h3 : ∀ t ∈ txns, t.currency.length = 3) :
    wfLen (accPositions txns) :=
  wfLen_foldl txns h3 [] (by intro p hp; simp at hp)

theorem nodupKeys_accPositions (txns : List Txn) :
    ((accPositions txns).map Prod.fst).Nodup :=
  nodupKeys_foldl txns [] (by simp)

theorem valAt_applyTxn (m : List (String × PosEntry)) (t : Txn) (a c : String)
    (hc : c.length = 3) (ht : t.currency.length = 3) :
    valAt (applyTxn m t) (a ++ ":" ++ c) = valAt m (a ++ ":" ++ c)
      + ((if a = t.creditor ∧ c = t.currency then t.amount else 0)
          - (if a = t.debtor ∧ c = t.currency then t.amount else 0)) := by
  unfold applyTxn
  rw [valAt_updPos, valAt_updPos]
  simp only [key_eq_iff hc ht]
  by_cases h1 : a = t.debtor ∧ c = t.currency
  · by_cases h2 : a = t.creditor ∧ c = t.currency
    · simp [h1, h2]
      ring
    · have hne : ¬(t.debtor = t.creditor) := fun hh => h2 ⟨h1.1.trans hh, h1.2⟩
      simp [h1, h2, hne]
  · by_cases h2 : a = t.creditor ∧ c = t.currency
    · have hne : ¬(t.creditor = t.debtor) := fun hh => h1 ⟨h2.1.trans hh, h2.2⟩
      simp [h1, h2, hne]
    · simp [h1, h2]

theorem specNetValue_cons (t : Txn) (ts : List Txn) (a c : String) :
    specNetValue (t :: ts) a c =
      ((if a = t.creditor ∧ c = t.currency then t.amount else 0)
        - (if a = t.debtor ∧ c = t.currency then t.amount else 0)) + specNetValue ts a c := by
  simp [specNetValue]

theorem valAt_foldl (txns : List Txn) (a c : String) (hc : c.length = 3)
    (h3 : ∀ t ∈ txns, t.currency.length = 3) :
    ∀ m, valAt (List.foldl applyTxn m txns) (a ++ ":" ++ c)
      = valAt m (a ++ ":" ++ c) + specNetValue txns a c := by
  induction txns with
  | nil => intro m; simp [specNetValue]
  | cons t ts ih =>
      intro m
      have ht := h3 t (List.mem_cons_self _ _)
      have h3' := fun u hu => h3 u (List.mem_cons_of_mem _ hu)
      rw [List.foldl_cons, ih h3', valAt_applyTxn m t a c hc ht, specNetValue_cons]
      ring

theorem valAt_accPositions (txns : List Txn) (a c : String) (hc : c.length = 3)
    (h3 : ∀ t ∈ txns, t.currency.length = 3) :
    valAt (accPositions txns) (a ++ ":" ++ c) = specNetValue txns a c := by
  have h := valAt_foldl txns a c hc h3 []
  rw [show valAt [] (a ++ ":" ++ c) = 0 from rfl, zero_add] at h
  exact h

theorem specNetValue_ne_zero_touch (txns : List Txn) (a c : String)
    (h : specNetValue txns a c ≠ 0) :
    ∃ t ∈ txns, t.currency = c ∧ (t.debtor = a ∨ t.creditor = a) := by
  by_contra hno
  push_neg at hno
  apply h
  apply List.sum_eq_zero
  intro x hx
  simp only [List.mem_map] at hx
  obtain ⟨t, ht, rfl⟩ := hx
  have := hno t ht
  by_cases hcur : t.currency = c
  · have hd : ¬(a = t.debtor) := fun hh => (this hcur).1 hh.symm
    have hcr : ¬(a = t.creditor) := fun hh => (this hcur).2 hh.symm
    simp [hd, hcr]
  · have hcc : ¬(c = t.currency) := fun hh => hcur hh.symm
    simp [hcc]

theorem mem_iff_findPos (m : List (String × PosEntry)) (k : String) (e : PosEntry)
    (h : (m.map Prod.fst).Nodup) : (k, e) ∈ m ↔ findPos m k = some e := by
  induction m with
  | nil => simp [findPos]
  | cons q rest ih =>
      obtain ⟨k', e'⟩ := q
      have hnotin : k' ∉ rest.map Prod.fst := by
        have := h
        simp only [List.map_cons, List.nodup_cons] at this
        exact this.1
      have hrest : (rest.map Prod.fst).Nodup := by
        simp only [List.map_cons, List.nodup_cons] at h
        exact h.2
      by_cases hk : k' = k
      · subst hk
        simp only [findPos, if_pos rfl]
        constructor
        · intro hmem
          rcases List.mem_cons.mp hmem with heq | hmem'
          · simpa using heq.symm
          · exact absurd (List.mem_map.mpr ⟨(k', e), hmem', rfl⟩) hnotin
        · intro hsome
          have : e' = e := by simpa using hsome
          subst this
          exact List.mem_cons_self _ _
      · simp only [findPos, if_neg hk]
        rw [← ih hrest]
        constructor
        · intro hmem
          rcases List.mem_cons.mp hmem with heq | hmem'
          · exact absurd (congrArg Prod.fst heq).symm hk
          · exact hmem'
        · intro hmem'
          exact List.mem_cons_of_mem _ hmem'

/-- Python's `abs` agrees with the mathematical absolute value. -/
theorem pyAbs_eq_abs (q : ℚ) : pyAbs q = |q| := by
  unfold pyAbs
  by_cases h : q < 0
  · simp [h, abs_of_neg h]
  · simp [h, abs_of_nonneg (not_lt.mp h)]

/-- Signed per-currency sum over all accumulated positions. -/
def sumCur (X : String) (m : List (String × PosEntry)) : ℚ :=
  (m.map fun p => if p.2.currency = X then p.2.amount else 0).sum

theorem sumCur_updPos (m : List (String × PosEntry)) (a c X : String) (d : ℚ)
    (hw : wfKeys m) (hl : wfLen m) (hc : c.length = 3) :
    sumCur X (updPos m (a ++ ":" ++ c) a c d) = sumCur X m + (if c = X then d else 0) := by
  induction m with
  | nil => simp [updPos, sumCur]
  | cons q rest ih =>
      obtain ⟨k, e⟩ := q
      have hwh := hw (k, e) (List.mem_cons_self _ _)
      have hlh := hl (k, e) (List.mem_cons_self _ _)
      have hwr : wfKeys rest := fun p hp => hw p (List.mem_cons_of_mem _ hp)
      have hlr : wfLen rest := fun p hp => hl p (List.mem_cons_of_mem _ hp)
      by_cases hk : k = a ++ ":" ++ c
      · have hkey : a ++ ":" ++ c = e.account ++ ":" ++ e.currency := hk ▸ hwh
        obtain ⟨ha, hcur⟩ := key_inj hc hlh hkey
        have hcur' : e.currency = c := by simpa using hcur.symm
        simp only [updPos, if_pos hk, sumCur, List.map_cons, List.sum_cons]
        rw [hcur']
        by_cases hcX : c = X
        · simp [sumCur, hcX]
          ring
        · simp [sumCur, hcX]
      · simp only [updPos, if_neg hk, sumCur, List.map_cons, List.sum_cons]
        have := ih hwr hlr
        simp only [sumCur] at this
        rw [this]
        ring

theorem sumCur_applyTxn (m : List (String × PosEntry)) (t : Txn) (X : String)
    (hw : wfKeys m) (hl : wfLen m) (ht : t.currency.length = 3) :
    sumCur X (applyTxn m t) = sumCur X m := by
  unfold applyTxn
  rw [sumCur_updPos _ _ _ _ _ (wfKeys_updPos _ _ _ _ hw) (wfLen_updPos _ _ _ _ _ hl ht) ht,
    sumCur_updPos _ _ _ _ _ hw hl ht]
  by_cases hX : t.currency = X <;> simp [hX]

theorem sumCur_foldl (txns : List Txn) (X : String)
    (h3 : ∀ t ∈ txns, t.currency.length = 3) :
    ∀ m, wfKeys m → wfLen m → sumCur X (List.foldl applyTxn m txns) = sumCur X m := by
  induction txns with
  | nil => intro m _ _; rfl
  | cons t ts ih =>
      intro m hw hl
      have ht := h3 t (List.mem_cons_self _ _)
      have h3' := fun u hu => h3 u (List.mem_cons_of_mem _ hu)
      rw [List.foldl_cons,
        ih h3' _ (wfKeys_applyTxn m t hw) (wfLen_applyTxn m t hl ht),
        sumCur_applyTxn m t X hw hl ht]

/-- Per-currency conservation of the accumulated (pre-filter) positions. -/
theorem sumCur_accPositions (txns : List Txn) (X : String)
    (h3 : ∀ t ∈ txns, t.currency.length = 3) :
    sumCur X (accPositions txns) = 0 := by
  have h := sumCur_foldl txns X h3 [] (by intro p hp; simp at hp) (by intro p hp; simp at hp)
  simpa [sumCur] using h

/-- The signed value a net position stands for: `PAY` amounts count negative,
`RECEIVE` amounts count positive. -/
def signedAmount (p : NetPosition) : ℚ :=
  if p.settlement_instruction = .PAY then -p.amount else p.amount

/-- Signed sum, in currency `X`, over the emitted net positions. -/
def emittedSumCur (X : String) (txns : List Txn) : ℚ :=
  ((calculateNetPositions txns).map fun p => if p.currency = X then signedAmount p else 0).sum

/-- Signed sum, in currency `X`, over the accumulated positions that the
`0.01` tolerance filter drops. -/
def droppedSum (X : String) (m : List (String × PosEntry)) : ℚ :=
  (m.map fun p =>
    if 1/100 < pyAbs p.2.amount then 0
    else if p.2.currency = X then p.2.amount else 0).sum

/-- Number of accumulated `(account, currency)` positions in currency `X`
that the `0.01` tolerance filter drops. -/
def droppedKeyCount (X : String) (txns : List Txn) : ℕ :=
  ((accPositions txns).filter fun p =>
    !(decide (1/100 < pyAbs p.2.amount)) && decide (p.2.currency = X)).length

theorem emitted_plus_dropped (X : String) (m : List (String × PosEntry)) :
    ((m.filterMap fun p => emitPos p.2).map fun p => if p.currency = X then signedAmount p else 0).sum
      + droppedSum X m = sumCur X m := by
  induction m with
  | nil => simp [sumCur, droppedSum]
  | cons q rest ih =>
      unfold droppedSum sumCur at ih ⊢
      by_cases hkeep : 1/100 < pyAbs q.2.amount
      · have hemit : emitPos q.2
            = some ⟨q.2.account, q.2.currency, pyAbs q.2.amount,
              if q.2.amount < 0 then .PAY else .RECEIVE⟩ := by
          unfold emitPos
          rw [if_pos hkeep]
        have hsigned : signedAmount ⟨q.2.account, q.2.currency, pyAbs q.2.amount,
            if q.2.amount < 0 then .PAY else .RECEIVE⟩ = q.2.amount := by
          unfold signedAmount pyAbs
          by_cases hneg : q.2.amount < 0
          · simp [hneg]
          · simp [hneg]
        simp only [List.filterMap_cons, hemit, List.map_cons, List.sum_cons]
        rw [hsigned, if_pos hkeep]
        linarith [ih]
      · have hemit : emitPos q.2 = none := by
          unfold emitPos
          rw [if_neg hkeep]
        simp only [List.filterMap_cons, hemit, List.map_cons, List.sum_cons]
        rw [if_neg hkeep]
        linarith [ih]

theorem dropped_bound (X : String) (m : List (String × PosEntry)) :
    |droppedSum X m|
      ≤ (1/100) * (((m.filter fun p =>
          !(decide (1/100 < pyAbs p.2.amount)) && decide (p.2.currency = X)).length : ℚ)) := by
  induction m with
  | nil => simp [droppedSum]
  | cons q rest ih =>
      unfold droppedSum at ih ⊢
      by_cases hkeep : 1/100 < pyAbs q.2.amount
      · rw [List.filter_cons_of_neg (by rw [decide_eq_true hkeep]; simp)]
        simp only [List.map_cons, List.sum_cons]
        rw [if_pos hkeep, zero_add]
        exact ih
      · by_cases hX : q.2.currency = X
        · rw [List.filter_cons_of_pos (by rw [decide_eq_false hkeep, decide_eq_true hX]; rfl)]
          simp only [List.map_cons, List.sum_cons]
          rw [if_neg hkeep, if_pos hX]
          have habs : |q.2.amount| ≤ 1/100 := by
            rw [← pyAbs_eq_abs]
            linarith [not_lt.mp hkeep]
          have htri := abs_add q.2.amount
            ((rest.map fun p =>
              if 1/100 < pyAbs p.2.amount then 0
              else if p.2.currency = X then p.2.amount else 0).sum)
          simp only [List.length_cons]
          push_cast
          linarith [ih, htri, habs]
        · rw [List.filter_cons_of_neg (by rw [decide_eq_false hkeep, decide_eq_false hX]; simp)]
          simp only [List.map_cons, List.sum_cons]
          rw [if_neg hkeep, if_neg hX]
          simp only [zero_add]
          exact ih

/-- C1 (amended): for payments with positive amounts and 3-letter currency
codes, the per-currency signed sum over all accumulated positions (before the
`0.01` tolerance filter) is exactly 0; the signed sum over the emitted net
positions deviates from 0 by at most `0.01` times the number of accumulated
positions the tolerance filter dropped in that currency (it is not bounded by
a fixed `0.01` once two or more positions are dropped). -/
theorem netting_conservation (txns : List Txn) (X : String)
    (hpos : ∀ t ∈ txns, 0 < t.amount) (h3 : ∀ t ∈ txns, t.currency.length = 3) :
    sumCur X (accPositions txns) = 0 ∧
    |emittedSumCur X txns| ≤ (1/100) * (droppedKeyCount X txns : ℚ) := by
  have hz := sumCur_accPositions txns X h3
  refine ⟨hz, ?_⟩
  have he := emitted_plus_dropped X (accPositions txns)
  have hb := dropped_bound X (accPositions txns)
  have hes : emittedSumCur X txns = - droppedSum X (accPositions txns) := by
    unfold emittedSumCur calculateNetPositions
    linarith [he, hz]
  rw [hes, abs_neg]
  unfold droppedKeyCount
  exact hb

/-- C1 witness: the three-payment cycle of the spec's own example satisfies the
hypotheses and its accumulated USD positions sum to exactly 0. -/
theorem netting_conservation_witness :
    (∀ t ∈ ([⟨"A", "B", "USD", 100⟩, ⟨"B", "C", "USD", 40⟩, ⟨"C", "A", "USD", 20⟩] : List Txn),
        0 < t.amount) ∧
    sumCur "USD" (accPositions
      [⟨"A", "B", "USD", 100⟩, ⟨"B", "C", "USD", 40⟩, ⟨"C", "A", "USD", 20⟩]) = 0 :=
  ⟨by norm_num, (netting_conservation
      [⟨"A", "B", "USD", 100⟩, ⟨"B", "C", "USD", 40⟩, ⟨"C", "A", "USD", 20⟩] "USD"
      (by norm_num) (by decide)).1⟩

/-- C1 counterexample: two 0.01 USD payments into the same creditor make the
code drop both debtor positions (|−0.01| does not exceed the tolerance) yet
emit the creditor's 0.02 RECEIVE position, so the signed sum over the emitted
positions is 0.02, violating the claimed `|ε| ≤ 0.01` bound. -/
theorem netting_conservation_counterexample :
    (∀ t ∈ ([⟨"A", "C", "USD", 1/100⟩, ⟨"B", "C", "USD", 1/100⟩] : List Txn), 0 < t.amount)
    ∧ (∀ t ∈ ([⟨"A", "C", "USD", 1/100⟩, ⟨"B", "C", "USD", 1/100⟩] : List Txn),
        t.currency.length = 3)
    ∧ emittedSumCur "USD" [⟨"A", "C", "USD", 1/100⟩, ⟨"B", "C", "USD", 1/100⟩] = 1/50
    ∧ ¬(|(1/50 : ℚ)| ≤ 1/100) := by
  refine ⟨by norm_num, by decide, ?_, ?_⟩
  · unfold emittedSumCur
    simp only [calculateNetPositions, accPositions, applyTxn, updPos, List.foldl]
    simp only [String.reduceAppend, String.reduceEq, reduceIte, emitPos, pyAbs, signedAmount]
    norm_num [List.filterMap_cons]
    decide
  · rw [abs_of_pos (by norm_num : (0:ℚ) < 1/50)]
    norm_num

/-- C2: the emitted net positions agree with the reference netting definition —
a `NetPosition` for `(a, c)` is in the output exactly when the reference
accumulated value at `(a, c)` exceeds the `0.01` tolerance in absolute value,
with instruction PAY iff that value is negative and the absolute value as the
output amount; and the spec's three-payment example yields exactly
{A: 80 PAY, B: 60 RECEIVE, C: 20 RECEIVE} in USD. -/
theorem net_positions_match_reference (txns : List Txn)
    (h3 : ∀ t ∈ txns, t.currency.length = 3) :
    (∀ a c amt i, (⟨a, c, amt, i⟩ : NetPosition) ∈ calculateNetPositions txns ↔
        (1/100 < |specNetValue txns a c| ∧ amt = |specNetValue txns a c| ∧
          i = (if specNetValue txns a c < 0 then Instr.PAY else Instr.RECEIVE)))
    ∧ calculateNetPositions [⟨"A", "B", "USD", 100⟩, ⟨"B", "C", "USD", 40⟩, ⟨"C", "A", "USD", 20⟩]
        = [⟨"A", "USD", 80, .PAY⟩, ⟨"B", "USD", 60, .RECEIVE⟩, ⟨"C", "USD", 20, .RECEIVE⟩] := by
  constructor
  · intro a c amt i
    constructor
    · intro hmem
      unfold calculateNetPositions at hmem
      rw [List.mem_filterMap] at hmem
      obtain ⟨q, hq, hfq⟩ := hmem
      unfold emitPos at hfq
      by_cases hkeep : 1/100 < pyAbs q.2.amount
      · rw [if_pos hkeep] at hfq
        have heq := Option.some.inj hfq
        have ha : q.2.account = a := congrArg NetPosition.account heq
        have hc : q.2.currency = c := congrArg NetPosition.currency heq
        have hamt : pyAbs q.2.amount = amt := congrArg NetPosition.amount heq
        have hi : (if q.2.amount < 0 then Instr.PAY else Instr.RECEIVE) = i :=
          congrArg NetPosition.settlement_instruction heq
        have hwf := wfKeys_accPositions txns q hq
        have hlen := wfLen_accPositions txns h3 q hq
        have hfind : findPos (accPositions txns) q.1 = some q.2 := by
          rw [← mem_iff_findPos _ _ _ (nodupKeys_accPositions txns)]
          exact hq
        have hc3 : c.length = 3 := hc ▸ hlen
        have hkey : q.1 = a ++ ":" ++ c := by rw [hwf, ha, hc]
        have hval : q.2.amount = specNetValue txns a c := by
          rw [← valAt_accPositions txns a c hc3 h3]
          unfold valAt
          rw [← hkey, hfind]
        refine ⟨?_, ?_, ?_⟩
        · rw [← hval, ← pyAbs_eq_abs]
          exact hkeep
        · rw [← hamt, ← hval, pyAbs_eq_abs]
        · rw [← hi, hval]
      · rw [if_neg hkeep] at hfq
        exact absurd hfq (by simp)
    · rintro ⟨hgt, hamt, hi⟩
      have hne : specNetValue txns a c ≠ 0 := by
        intro h0
        rw [h0] at hgt
        norm_num at hgt
      obtain ⟨t, ht, htc, _⟩ := specNetValue_ne_zero_touch txns a c hne
      have hc3 : c.length = 3 := htc ▸ h3 t ht
      have hval := valAt_accPositions txns a c hc3 h3
      cases hfp : findPos (accPositions txns) (a ++ ":" ++ c) with
      | none =>
          exfalso
          apply hne
          rw [← hval]
          unfold valAt
          rw [hfp]
      | some e =>
          have hea : e.amount = specNetValue txns a c := by
            rw [← hval]
            unfold valAt
            rw [hfp]
          have hmeme : (a ++ ":" ++ c, e) ∈ accPositions txns :=
            (mem_iff_findPos _ _ _ (nodupKeys_accPositions txns)).mpr hfp
          have hwf := wfKeys_accPositions txns _ hmeme
          have hlen := wfLen_accPositions txns h3 _ hmeme
          obtain ⟨hacc, hcur⟩ := key_inj hc3 hlen hwf
          unfold calculateNetPositions
          rw [List.mem_filterMap]
          refine ⟨(a ++ ":" ++ c, e), hmeme, ?_⟩
          unfold emitPos
          have hkeep : 1/100 < pyAbs e.amount := by
            rw [pyAbs_eq_abs, hea]
            exact hgt
          rw [if_pos hkeep]
          rw [← hacc, ← hcur, pyAbs_eq_abs, hea, ← hamt, ← hi]
  · simp only [calculateNetPositions, accPositions, applyTxn, updPos, List.foldl]
    simp only [String.reduceAppend, String.reduceEq, reduceIte, emitPos, pyAbs]
    norm_num [List.filterMap_cons]

/-- C2 witness: instantiating the reference-agreement theorem at the spec's
three-payment example. -/
theorem net_positions_match_reference_witness :
    calculateNetPositions [⟨"A", "B", "USD", 100⟩, ⟨"B", "C", "USD", 40⟩, ⟨"C", "A", "USD", 20⟩]
      = [⟨"A", "USD", 80, .PAY⟩, ⟨"B", "USD", 60, .RECEIVE⟩, ⟨"C", "USD", 20, .RECEIVE⟩] :=
  (net_positions_match_reference
    [⟨"A", "B", "USD", 100⟩, ⟨"B", "C", "USD", 40⟩, ⟨"C", "A", "USD", 20⟩] (by decide)).2

/-- The sequence of dict keys touched by the accumulation loop, two per
payment: debtor key first, then creditor key. -/
def scanKeys (txns : List Txn) : List String :=
  txns.flatMap fun t => [t.debtor ++ ":" ++ t.currency, t.creditor ++ ":" ++ t.currency]

/-- CPython-dict key order: a known key keeps its position, a new key is
appended at the end. -/
def insertKey (ks : List String) (k : String) : List String :=
  if k ∈ ks then ks else ks ++ [k]

theorem keys_updPos_insertKey (m : List (String × PosEntry)) (key acct cur : String) (d : ℚ) :
    (updPos m key acct cur d).map Prod.fst = insertKey (m.map Prod.fst) key := by
  rw [keys_updPos]
  rfl

theorem keys_applyTxn (m : List (String × PosEntry)) (t : Txn) :
    (applyTxn m t).map Prod.fst =
      insertKey (insertKey (m.map Prod.fst) (t.debtor ++ ":" ++ t.currency))
        (t.creditor ++ ":" ++ t.currency) := by
  unfold applyTxn
  rw [keys_updPos_insertKey, keys_updPos_insertKey]

theorem keys_foldl (txns : List Txn) :
    ∀ m : List (String × PosEntry),
      (List.foldl applyTxn m txns).map Prod.fst = (scanKeys txns).foldl insertKey (m.map Prod.fst) := by
  induction txns with
  | nil => intro m; simp [scanKeys]
  | cons t ts ih =>
      intro m
      rw [List.foldl_cons, ih]
      unfold scanKeys
      rw [List.flatMap_cons, List.foldl_append, List.foldl_cons, List.foldl_cons, List.foldl_nil,
        keys_applyTxn]

theorem emitted_keys (m : List (String × PosEntry)) (hw : wfKeys m) :
    ((m.filterMap fun p => emitPos p.2).map fun p => p.account ++ ":" ++ p.currency)
      = (m.filter fun p => decide (1/100 < pyAbs p.2.amount)).map Prod.fst := by
  induction m with
  | nil => rfl
  | cons q rest ih =>
      have hwq := hw q (List.mem_cons_self _ _)
      have hwr : wfKeys rest := fun p hp => hw p (List.mem_cons_of_mem _ hp)
      by_cases hkeep : 1/100 < pyAbs q.2.amount
      · have hemit : emitPos q.2
            = some ⟨q.2.account, q.2.currency, pyAbs q.2.amount,
              if q.2.amount < 0 then .PAY else .RECEIVE⟩ := by
          unfold emitPos
          rw [if_pos hkeep]
        rw [List.filter_cons_of_pos (by simp only [decide_eq_true_eq]; exact hkeep)]
        simp only [List.filterMap_cons, hemit, List.map_cons]
        rw [ih hwr]
        congr 1
        exact hwq.symm
      · have hemit : emitPos q.2 = none := by
          unfold emitPos
          rw [if_neg hkeep]
        rw [List.filter_cons_of_neg (by simp only [decide_eq_true_eq]; exact hkeep)]
        simp only [List.filterMap_cons, hemit]
        exact ih hwr

/-- C7 (amended): the emitted net positions appear in dict insertion order —
the key sequence of the accumulated positions is the first-occurrence order of
the scanned debtor/creditor keys, and the output lists exactly the
above-tolerance positions in that order (the output is not sorted by
`(account, currency)`). -/
theorem net_positions_insertion_order (txns : List Txn) :
    ((calculateNetPositions txns).map fun p => p.account ++ ":" ++ p.currency)
      = ((accPositions txns).filter fun p => decide (1/100 < pyAbs p.2.amount)).map Prod.fst
    ∧ (accPositions txns).map Prod.fst = (scanKeys txns).foldl insertKey [] := by
  constructor
  · exact emitted_keys _ (wfKeys_accPositions txns)
  · have h := keys_foldl txns []
    simpa using h

/-- The claimed output ordering, written from the specification text:
ascending in the pair `(account, currency)` (string order compares the
underlying character sequences). -/
def keyLe (p q : NetPosition) : Prop :=
  p.account.data < q.account.data
    ∨ (p.account = q.account ∧ (p.currency.data < q.currency.data ∨ p.currency = q.currency))

/-- `sorted ascending by (account, currency)` as claimed by the spec. -/
def sortedByAccountCurrency (l : List NetPosition) : Prop :=
  l.Chain' keyLe

/-- C7 counterexample: a single payment B→A leaves the output in dict
insertion order `[B, A]`, which is not sorted ascending by account. -/
theorem net_positions_not_sorted_counterexample :
    ¬ sortedByAccountCurrency (calculateNetPositions [⟨"B", "A", "USD", 100⟩]) := by
  have hc : calculateNetPositions [⟨"B", "A", "USD", 100⟩]
      = [⟨"B", "USD", 100, .PAY⟩, ⟨"A", "USD", 100, .RECEIVE⟩] := by
    simp only [calculateNetPositions, accPositions, applyTxn, updPos, List.foldl]
    simp only [String.reduceAppend, String.reduceEq, reduceIte, emitPos, pyAbs]
    norm_num [List.filterMap_cons]
  rw [hc]
  unfold sortedByAccountCurrency
  rw [List.chain'_cons]
  rintro ⟨hle, -⟩
  unfold keyLe at hle
  rcases hle with h | ⟨h, -⟩
  · revert h
    decide
  · revert h
    decide

/-- Inputs of `_assess_transaction_risk` (`src/gateway/api/risk.py`): the
transaction's amount and currency, the debtor's payment count over the prior
24 hours (the `COUNT(*)` query result), and the current UTC weekday
(`datetime.utcnow().weekday()`, Monday = 0 … Sunday = 6). -/
structure AssessInput where
  amount : ℚ
  currency : String
  recentDebtorCount : ℕ
  utcWeekday : Fin 7

/-- Result of `_assess_transaction_risk`. -/
structure AssessResult where
  risk_score : ℤ
  risk_factors : List String
  recommended_action : String
deriving DecidableEq, Repr

/-- `_assess_transaction_risk` (`src/gateway/api/risk.py`): sequential
accumulation of risk factors and score, then the action thresholds. -/
def assessTransactionRisk (inp : AssessInput) : AssessResult :=
  let factors0 : List String := []
  let score0 : ℤ := 0
  let s1 := if 100000 < inp.amount then (factors0 ++ ["HIGH_VALUE"], score0 + 20)
            else (factors0, score0)
  let s2 := if inp.currency ∈ ["AED", "INR", "CNY"] then (s1.1 ++ ["HIGH_RISK_CURRENCY"], s1.2 + 15)
            else s1
  let s3 := if 10 < inp.recentDebtorCount then (s2.1 ++ ["HIGH_FREQUENCY"], s2.2 + 10)
            else s2
  let s4 := if 5 ≤ inp.utcWeekday.val then (s3.1 ++ ["WEEKEND_TRANSACTION"], s3.2 + 5)
            else s3
  let action := if 40 ≤ s4.2 then "MANUAL_REVIEW"
                else if 20 ≤ s4.2 then "ENHANCED_MONITORING"
                else "APPROVE"
  ⟨s4.2, s4.1, action⟩

/-- C3: the risk score is the sum of the four independent feature indicators
(+20 high value, +15 high-risk currency, +10 high frequency, +5 weekend), the
recommended action follows the `<20 / <40 / ≥40` thresholds on that score, and
the spec's example — 250000 AED, 12 prior debtor payments, on a Saturday —
scores 50 with MANUAL_REVIEW. -/
theorem assess_risk_additive (inp : AssessInput) :
    ((assessTransactionRisk inp).risk_score =
        (if 100000 < inp.amount then 20 else 0)
        + (if inp.currency ∈ ["AED", "INR", "CNY"] then 15 else 0)
        + (if 10 < inp.recentDebtorCount then 10 else 0)
        + (if inp.utcWeekday.val = 5 ∨ inp.utcWeekday.val = 6 then 5 else 0)
      ∧ (assessTransactionRisk inp).recommended_action =
          (if (assessTransactionRisk inp).risk_score < 20 then "APPROVE"
           else if (assessTransactionRisk inp).risk_score < 40 then "ENHANCED_MONITORING"
           else "MANUAL_REVIEW"))
    ∧ assessTransactionRisk ⟨250000, "AED", 12, ⟨5, by omega⟩⟩ =
        ⟨50, ["HIGH_VALUE", "HIGH_RISK_CURRENCY", "HIGH_FREQUENCY", "WEEKEND_TRANSACTION"],
          "MANUAL_REVIEW"⟩ := by
  constructor
  · have hwk : (5 ≤ inp.utcWeekday.val) ↔ (inp.utcWeekday.val = 5 ∨ inp.utcWeekday.val = 6) := by
      have := inp.utcWeekday.isLt
      omega
    unfold assessTransactionRisk
    by_cases h1 : 100000 < inp.amount <;>
      by_cases h2 : inp.currency ∈ ["AED", "INR", "CNY"] <;>
        by_cases h3 : 10 < inp.recentDebtorCount <;>
          by_cases h4 : 5 ≤ inp.utcWeekday.val <;>
            simp [h1, h2, h3, h4, hwk.symm, ← hwk]
  · unfold assessTransactionRisk
    norm_num

/-- `generate_uuidv7` (`src/shared/utils/uuidv7.py`): the 128-bit integer
assembled from the millisecond timestamp and the two random fields, exactly as
the source composes it with shifts, masks and ors. -/
def uuidv7FromParts (ts ra rb : ℕ) : ℕ :=
  (((ts >>> 16) &&& 0xFFFFFFFF) <<< 96) |||
  ((ts &&& 0xFFFF) <<< 80) |||
  (7 <<< 76) |||
  ((ra &&& 0xFFF) <<< 64) |||
  (2 <<< 62) |||
  (rb &&& 0x3FFFFFFFFFFFFFFF)

/-- The 128-bit layout the specification text describes: 48-bit timestamp,
then 12 random bits, then the 4-bit version (7), then 62 random bits, then
the 2-bit variant (10), most significant first. -/
def specUuidv7Layout (ts ra rb : ℕ) : ℕ :=
  (ts % 2^48) * 2^80 + (ra % 2^12) * 2^68 + 7 * 2^64 + (rb % 2^62) * 2^2 + 2

theorem testBit_mul_pow_add (a k b j : ℕ) (hb : b < 2^k) :
    (a * 2^k + b).testBit j = if j < k then b.testBit j else a.testBit (j - k) := by
  by_cases hj : j < k
  · rw [if_pos hj]
    rw [Nat.testBit_to_div_mod, Nat.testBit_to_div_mod]
    have hksplit : a * 2^k = 2^j * (a * 2^(k - j)) := by
      have hjk : j + (k - j) = k := by omega
      calc a * 2^k = a * (2^j * 2^(k - j)) := by rw [← pow_add, hjk]
        _ = 2^j * (a * 2^(k - j)) := by ring
    rw [hksplit, Nat.mul_add_div (Nat.pos_pow_of_pos j (by norm_num))]
    have heven : a * 2^(k - j) = 2 * (a * 2^(k - j - 1)) := by
      have h2 : 2^(k - j) = 2 * 2^(k - j - 1) := by
        rw [← pow_succ']
        congr 1
        omega
      rw [h2]
      ring
    rw [heven, Nat.mul_add_mod]
  · rw [if_neg hj]
    rw [Nat.testBit_to_div_mod, Nat.testBit_to_div_mod]
    have hsplit : (2:ℕ)^j = 2^k * 2^(j - k) := by
      rw [← pow_add]
      congr 1
      omega
    rw [hsplit, ← Nat.div_div_eq_div_mul, mul_comm a (2^k),
      Nat.mul_add_div (Nat.pos_pow_of_pos k (by norm_num)),
      Nat.div_eq_of_lt hb, Nat.add_zero]

theorem lor_shiftLeft_add (a k b : ℕ) (hb : b < 2^k) :
    a <<< k ||| b = a <<< k + b := by
  apply Nat.eq_of_testBit_eq
  intro j
  rw [Nat.testBit_lor, Nat.testBit_shiftLeft, Nat.shiftLeft_eq,
    testBit_mul_pow_add a k b j hb]
  by_cases hj : j < k
  · rw [if_pos hj]
    have hd : (decide (k ≤ j)) = false := by
      simp
      omega
    rw [hd, Bool.false_and, Bool.false_or]
  · rw [if_neg hj]
    have hd : (decide (k ≤ j)) = true := by
      simp
      omega
    have hbj : b.testBit j = false :=
      Nat.testBit_lt_two_pow (lt_of_lt_of_le hb (Nat.pow_le_pow_right (by norm_num) (by omega)))
    rw [hd, Bool.true_and, hbj, Bool.or_false]

theorem lor_mul_pow_add (a k b : ℕ) (hb : b < 2^k) :
    a * 2^k ||| b = a * 2^k + b := by
  rw [← Nat.shiftLeft_eq]
  exact lor_shiftLeft_add a k b hb

theorem uuidv7_closed (ts ra rb : ℕ) (hts : ts < 2^48) :
    uuidv7FromParts ts ra rb
      = ts * 2^80 + 7 * 2^76 + (ra % 2^12) * 2^64 + 2 * 2^62 + rb % 2^62 := by
  unfold uuidv7FromParts
  have hm32 : (0xFFFFFFFF : ℕ) = 2^32 - 1 := by norm_num
  have hm16 : (0xFFFF : ℕ) = 2^16 - 1 := by norm_num
  have hm12 : (0xFFF : ℕ) = 2^12 - 1 := by norm_num
  have hm62 : (0x3FFFFFFFFFFFFFFF : ℕ) = 2^62 - 1 := by norm_num
  rw [hm32, hm16, hm12, hm62,
    Nat.and_pow_two_sub_one_eq_mod, Nat.and_pow_two_sub_one_eq_mod,
    Nat.and_pow_two_sub_one_eq_mod, Nat.and_pow_two_sub_one_eq_mod,
    Nat.shiftRight_eq_div_pow,
    Nat.shiftLeft_eq, Nat.shiftLeft_eq, Nat.shiftLeft_eq, Nat.shiftLeft_eq, Nat.shiftLeft_eq]
  rw [Nat.lor_assoc, Nat.lor_assoc, Nat.lor_assoc, Nat.lor_assoc]
  rw [lor_mul_pow_add 2 62 (rb % 2^62) (by omega)]
  rw [lor_mul_pow_add (ra % 2^12) 64 (2 * 2^62 + rb % 2^62) (by omega)]
  rw [lor_mul_pow_add 7 76 ((ra % 2^12) * 2^64 + (2 * 2^62 + rb % 2^62)) (by omega)]
  rw [lor_mul_pow_add (ts % 2^16) 80
    (7 * 2^76 + ((ra % 2^12) * 2^64 + (2 * 2^62 + rb % 2^62))) (by omega)]
  rw [lor_mul_pow_add (ts / 2^16 % 2^32) 96
    ((ts % 2^16) * 2^80 + (7 * 2^76 + ((ra % 2^12) * 2^64 + (2 * 2^62 + rb % 2^62))))
    (by omega)]
  omega

/-- C9 counterexample: at timestamp 0 with random fields `ra = 1, rb = 0`, the
id the code builds differs from the value prescribed by the claimed bit layout
(48-bit ts ‖ 12 random ‖ version ‖ 62 random ‖ variant); the code places the
4-bit version before the 12 random bits and the 2-bit variant before the 62
random bits. Moreover two ids generated at the same (hence non-decreasing)
timestamp can compare in decreasing order. -/
theorem uuidv7_layout_counterexample :
    uuidv7FromParts 0 1 0 ≠ specUuidv7Layout 0 1 0
    ∧ uuidv7FromParts 0 0 0 < uuidv7FromParts 0 1 0 := by
  constructor
  · decide
  · decide

/-- C9 (amended): for timestamps below 2^48 the generated id is laid out, most
significant first, as the 48-bit Unix-ms timestamp, then the 4-bit version
(7), then 12 random bits, then the 2-bit variant (10), then 62 random bits;
the most-significant 48 bits (`id >>> 80`) equal the timestamp, and ids at
strictly increasing timestamps compare strictly increasingly. -/
theorem uuidv7_layout (ts ra rb : ℕ) (hts : ts < 2^48) :
    uuidv7FromParts ts ra rb
        = ts * 2^80 + 7 * 2^76 + (ra % 2^12) * 2^64 + 2 * 2^62 + rb % 2^62
      ∧ uuidv7FromParts ts ra rb >>> 80 = ts
      ∧ ∀ ts' ra' rb', ts' < 2^48 → ts < ts' →
          uuidv7FromParts ts ra rb < uuidv7FromParts ts' ra' rb' := by
  have hc := uuidv7_closed ts ra rb hts
  refine ⟨hc, ?_, ?_⟩
  · rw [hc, Nat.shiftRight_eq_div_pow]
    omega
  · intro ts' ra' rb' hts' hlt
    rw [hc, uuidv7_closed ts' ra' rb' hts']
    have h1 : ra % 2^12 < 2^12 := by omega
    have h2 : rb % 2^62 < 2^62 := by omega
    have h3 : ra' % 2^12 < 2^12 := by omega
    have h4 : rb' % 2^62 < 2^62 := by omega
    omega

/-- C9 witness: the layout theorem instantiated at timestamp 1 with zero
random fields. -/
theorem uuidv7_layout_witness :
    uuidv7FromParts 1 0 0 >>> 80 = 1 :=
  (uuidv7_layout 1 0 0 (by norm_num)).2.1

/-- The fields of a cached liquidity quote that `execute_quote` reads
(`src/gateway/api/liquidity.py`): the rate applied at execution and the
expiry instant (timestamps modelled as rationals). -/
structure LiquidityQuote where
  applied_rate : ℚ
  expires_at : ℚ
deriving DecidableEq, Repr

/-- Redis `get`: first binding of the key in the KV store. -/
def kvGet (kv : List (String × LiquidityQuote)) (k : String) : Option LiquidityQuote :=
  match kv with
  | [] => none
  | (k', v) :: rest => if k' = k then some v else kvGet rest k

/-- Redis `delete`: removes every binding of the key. -/
def kvDelete (kv : List (String × LiquidityQuote)) (k : String) : List (String × LiquidityQuote) :=
  kv.filter fun p => !(p.1 == k)

/-- Outcome of `execute_quote`: HTTP status, resulting KV state, and whether
`liquidity.quote_executed` was published. -/
structure ExecOutcome where
  status : ℕ
  kv : List (String × LiquidityQuote)
  published : Bool
deriving DecidableEq, Repr

/-- `execute_quote(quote_id)` (`src/gateway/api/liquidity.py`): load
`quote:<id>` from KV; absent → 404; `now > expires_at` → 410; otherwise
delete the key, publish the execution event, and return the result (200). -/
def executeQuote (kv : List (String × LiquidityQuote)) (now : ℚ) (qid : String) : ExecOutcome :=
  match kvGet kv ("quote:" ++ qid) with
  | none => ⟨404, kv, false⟩
  | some q =>
      if q.expires_at < now then ⟨410, kv, false⟩
      else ⟨200, kvDelete kv ("quote:" ++ qid), true⟩

theorem kvGet_kvDelete (kv : List (String × LiquidityQuote)) (k : String) :
    kvGet (kvDelete kv k) k = none := by
  induction kv with
  | nil => rfl
  | cons p rest ih =>
      unfold kvDelete at ih ⊢
      by_cases h : p.1 = k
      · rw [List.filter_cons_of_neg (by simp [h])]
        exact ih
      · rw [List.filter_cons_of_pos (by simp [h])]
        unfold kvGet
        rw [if_neg h]
        exact ih

/-- C6: executing an absent quote yields 404 without state change or event;
executing an expired quote yields 410 without state change or event; executing
a live quote yields 200, deletes the KV record and publishes the event — and
therefore a second execute of the same quote id, at any later instant, yields
404. -/
theorem execute_quote_single_use (kv : List (String × LiquidityQuote)) (now : ℚ) (qid : String) :
    (kvGet kv ("quote:" ++ qid) = none → executeQuote kv now qid = ⟨404, kv, false⟩)
    ∧ (∀ q, kvGet kv ("quote:" ++ qid) = some q → q.expires_at < now →
        executeQuote kv now qid = ⟨410, kv, false⟩)
    ∧ (∀ q, kvGet kv ("quote:" ++ qid) = some q → ¬(q.expires_at < now) →
        (executeQuote kv now qid).status = 200
          ∧ (executeQuote kv now qid).published = true
          ∧ kvGet (executeQuote kv now qid).kv ("quote:" ++ qid) = none)
    ∧ (∀ now', (executeQuote kv now qid).status = 200 →
        (executeQuote (executeQuote kv now qid).kv now' qid).status = 404) := by
  refine ⟨?_, ?_, ?_, ?_⟩
  · intro h
    unfold executeQuote
    rw [h]
  · intro q hq hexp
    unfold executeQuote
    rw [hq]
    simp only [if_pos hexp]
  · intro q hq hlive
    have hout : executeQuote kv now qid = ⟨200, kvDelete kv ("quote:" ++ qid), true⟩ := by
      unfold executeQuote
      rw [hq]
      simp [hlive]
    rw [hout]
    exact ⟨rfl, rfl, kvGet_kvDelete kv _⟩
  · intro now' h200
    cases hq : kvGet kv ("quote:" ++ qid) with
    | none =>
        have hout : executeQuote kv now qid = ⟨404, kv, false⟩ := by
          unfold executeQuote
          rw [hq]
        rw [hout] at h200
        simp at h200
    | some q =>
        by_cases hexp : q.expires_at < now
        · have hout : executeQuote kv now qid = ⟨410, kv, false⟩ := by
            unfold executeQuote
            rw [hq]
            simp [hexp]
          rw [hout] at h200
          simp at h200
        · have hout : executeQuote kv now qid
              = ⟨200, kvDelete kv ("quote:" ++ qid), true⟩ := by
            unfold executeQuote
            rw [hq]
            simp [hexp]
          rw [hout]
          show (executeQuote (kvDelete kv ("quote:" ++ qid)) now' qid).status = 404
          unfold executeQuote
          rw [kvGet_kvDelete]

/-- C6 witness: a one-quote store executed before expiry returns 200 and a
second execute returns 404. -/
theorem execute_quote_single_use_witness :
    kvGet [("quote:q1", ⟨(3 : ℚ)/2, 100⟩)] ("quote:" ++ "q1") = some ⟨(3 : ℚ)/2, 100⟩
    ∧ (executeQuote [("quote:q1", ⟨(3 : ℚ)/2, 100⟩)] 50 "q1").status = 200
    ∧ (executeQuote (executeQuote [("quote:q1", ⟨(3 : ℚ)/2, 100⟩)] 50 "q1").kv 60 "q1").status
        = 404 := by
  have hget : kvGet [("quote:q1", ⟨(3 : ℚ)/2, 100⟩)] ("quote:" ++ "q1")
      = some ⟨(3 : ℚ)/2, 100⟩ := by
    simp [kvGet]
  have hlive : ¬((⟨(3 : ℚ)/2, 100⟩ : LiquidityQuote).expires_at < 50) := by norm_num
  have h := execute_quote_single_use [("quote:q1", ⟨(3 : ℚ)/2, 100⟩)] 50 "q1"
  have h200 := (h.2.2.1 ⟨(3 : ℚ)/2, 100⟩ hget hlive).1
  exact ⟨hget, h200, h.2.2.2 60 h200⟩

/-- Value of a hexadecimal digit character, if any.  Python's `int(s, 16)`
also maps Unicode decimal digits (category Nd) to their values, but the
latin-1 range — the only characters an HTTP header value can carry — has no
decimal digits beyond ASCII `0`–`9`, so the ASCII classes are complete for
every input the middleware can receive. -/
def pyHexDigitVal (c : Char) : Option ℕ :=
  if '0' ≤ c ∧ c ≤ '9' then some (c.toNat - '0'.toNat)
  else if 'a' ≤ c ∧ c ≤ 'f' then some (c.toNat - 'a'.toNat + 10)
  else if 'A' ≤ c ∧ c ≤ 'F' then some (c.toNat - 'A'.toNat + 10)
  else none

/-- Digit scanner of Python's `int(s, 16)`: hex digits with single
underscores allowed between digits (and right after the `0x` prefix).
`seen` records whether a digit has been read; `uAllowed` whether an
underscore may appear at the current position. -/
def pyHexDigits : List Char → ℕ → Bool → Bool → Option ℕ
  | [], acc, seen, uAllowed => if seen && uAllowed then some acc else none
  | c :: rest, acc, seen, uAllowed =>
      if c = '_' then
        if uAllowed then pyHexDigits rest acc seen false else none
      else match pyHexDigitVal c with
        | some v => pyHexDigits rest (acc * 16 + v) true true
        | none => none

/-- The numeric part of Python's `int(s, 16)`: an optional `0x`/`0X` prefix,
then hex digits. -/
def pyIntHexNum : List Char → Option ℕ
  | '0' :: c :: rest =>
      if c = 'x' ∨ c = 'X' then pyHexDigits rest 0 false true
      else pyHexDigits ('0' :: c :: rest) 0 false false
  | cs => pyHexDigits cs 0 false false

/-- The whitespace Python's `int` conversion strips at the ends, restricted
to the latin-1 range (HTTP header values are decoded as latin-1, so no
higher code point can reach the middleware): the six ASCII whitespace
characters plus U+0085 (NEL) and U+00A0 (NBSP), which the conversion's
decimal-and-space transform also turns into spaces.  The separators
U+001C–U+001F satisfy `str.isspace` but are not stripped by `int`. -/
def pyWs (c : Char) : Bool :=
  c == ' ' || c == '\t' || c == '\n' || c == '\r' || c == '\x0b' || c == '\x0c'
    || c == '\x85' || c == '\xa0'

/-- Python's `int(s, 16)`: strip whitespace, optional sign, then the numeric
part. -/
def pyIntHex (s : List Char) : Option ℤ :=
  let t := ((s.dropWhile pyWs).reverse.dropWhile pyWs).reverse
  match t with
  | '+' :: rest => (pyIntHexNum rest).map fun n => (n : ℤ)
  | '-' :: rest => (pyIntHexNum rest).map fun n => -(n : ℤ)
  | rest => (pyIntHexNum rest).map fun n => (n : ℤ)

/-- `str.strip('{}')`: remove leading and trailing braces. -/
def stripBraces (l : List Char) : List Char :=
  ((l.dropWhile fun c => c == '{' || c == '}').reverse.dropWhile
    fun c => c == '{' || c == '}').reverse

/-- `str.replace(p :: ps, "")`: drop every non-overlapping occurrence of the
pattern, scanning left to right (fuel-driven for structural recursion). -/
def removeOccAux (p : Char) (ps : List Char) : ℕ → List Char → List Char
  | 0, l => l
  | _ + 1, [] => []
  | fuel + 1, c :: rest =>
      if c = p ∧ ps.isPrefixOf rest then removeOccAux p ps fuel (rest.drop ps.length)
      else c :: removeOccAux p ps fuel rest

def removeOcc (p : Char) (ps : List Char) (l : List Char) : List Char :=
  removeOccAux p ps l.length l

/-- Python's `uuid.UUID(hex)` constructor on a string: drop `urn:` and
`uuid:` occurrences, strip braces, drop all hyphens, require exactly 32
remaining characters, and read them with `int(·, 16)`; returns the 128-bit
integer value on success.  Faithful on every latin-1 string — the full set
of strings an HTTP header value can decode to. -/
def pyUUIDParse (s : String) : Option ℕ :=
  let h1 := removeOcc 'u' ['r', 'n', ':'] s.data
  let h2 := removeOcc 'u' ['u', 'i', 'd', ':'] h1
  let h3 := stripBraces h2
  let h4 := h3.filter fun c => !(c == '-')
  if h4.length = 32 then (pyIntHex h4).map Int.toNat
  else none

inductive HttpMethod
  | GET
  | POST
  | PUT
  | PATCH
  | DELETE
deriving DecidableEq, Repr

/-- A cached idempotency record as replayed by the middleware (only the
status code matters here). -/
structure CachedResponse where
  status_code : ℕ
deriving DecidableEq, Repr

/-- Outcome of `IdempotencyMiddleware.dispatch`: response status, the error
code of a middleware-produced error body, and whether the inner handler ran. -/
structure DispatchOutcome where
  status : ℕ
  errorCode : Option String
  handlerInvoked : Bool
deriving DecidableEq, Repr

/-- `IdempotencyMiddleware.dispatch` (`src/gateway/middleware/idempotency.py`):
non-POST/PUT/PATCH pass through; a missing (or empty, hence falsy) key on POST
yields 400 MISSING_IDEMPOTENCY_KEY; a key `uuid.UUID` cannot parse yields 400
INVALID_IDEMPOTENCY_KEY; a cached record is replayed without calling the inner
handler; otherwise the inner handler runs (the 2xx-caching of the response is
not observable in this outcome). -/
def idempotencyDispatch (method : HttpMethod) (idemKey : Option String)
    (cached : Option CachedResponse) (innerStatus : ℕ) : DispatchOutcome :=
  if method ∉ [HttpMethod.POST, HttpMethod.PUT, HttpMethod.PATCH] then
    ⟨innerStatus, none, true⟩
  else
    match idemKey with
    | none =>
        if method = HttpMethod.POST then ⟨400, some "MISSING_IDEMPOTENCY_KEY", false⟩
        else ⟨innerStatus, none, true⟩
    | some k =>
        if k = "" then
          if method = HttpMethod.POST then ⟨400, some "MISSING_IDEMPOTENCY_KEY", false⟩
          else ⟨innerStatus, none, true⟩
        else
          match pyUUIDParse k with
          | none => ⟨400, some "INVALID_IDEMPOTENCY_KEY", false⟩
          | some _ =>
              match cached with
              | some c => ⟨c.status_code, none, false⟩
              | none => ⟨innerStatus, none, true⟩

/-- "Well-formed version-4 UUID string", written from the specification text:
parses as a UUID and its version nibble (bits 76–79) is 4. -/
def isWellFormedV4UUID (s : String) : Bool :=
  match pyUUIDParse s with
  | some n => ((n >>> 76) &&& 0xF) == 4
  | none => false

/-- C4 (amended): on POST, an absent or empty Idempotency-Key yields 400
MISSING_IDEMPOTENCY_KEY without invoking the inner handler; a latin-1 key —
HTTP header values are latin-1-decoded, so this covers every key the
middleware can receive — that does not parse as a UUID of any version yields
400 INVALID_IDEMPOTENCY_KEY without invoking the inner handler; but any
parseable UUID string is accepted — the version is not checked. -/
theorem idempotency_key_validation (cached : Option CachedResponse) (innerStatus : ℕ) :
    (idempotencyDispatch .POST none cached innerStatus
        = ⟨400, some "MISSING_IDEMPOTENCY_KEY", false⟩)
    ∧ (idempotencyDispatch .POST (some "") cached innerStatus
        = ⟨400, some "MISSING_IDEMPOTENCY_KEY", false⟩)
    ∧ (∀ k, k ≠ "" → (∀ c ∈ k.data, c.toNat < 256) → pyUUIDParse k = none →
        idempotencyDispatch .POST (some k) cached innerStatus
          = ⟨400, some "INVALID_IDEMPOTENCY_KEY", false⟩)
    ∧ (∀ k n, pyUUIDParse k = some n → k ≠ "" → cached = none →
        idempotencyDispatch .POST (some k) cached innerStatus
          = ⟨innerStatus, none, true⟩) := by
  refine ⟨?_, ?_, ?_, ?_⟩
  · simp [idempotencyDispatch]
  · simp [idempotencyDispatch]
  · intro k hk hlatin hparse
    simp [idempotencyDispatch, hk, hparse]
  · intro k n hparse hk hc
    simp [idempotencyDispatch, hk, hparse, hc]

/-- C4 witness: the latin-1 key "abc" does not parse, so a POST carrying it
is rejected with INVALID_IDEMPOTENCY_KEY and the handler does not run. -/
theorem idempotency_key_validation_witness :
    idempotencyDispatch .POST (some "abc") none 201
      = ⟨400, some "INVALID_IDEMPOTENCY_KEY", false⟩ :=
  (idempotency_key_validation none 201).2.2.1 "abc" (by decide) (by decide) (by decide)

/-- C4 counterexample: a version-1 UUID string is not a well-formed version-4
UUID, yet the middleware parses it, accepts it and invokes the inner handler
instead of answering 400 INVALID_IDEMPOTENCY_KEY. -/
theorem idempotency_v4_not_enforced_counterexample :
    isWellFormedV4UUID "c232ab00-9414-11ec-b3c8-9f68deced846" = false
    ∧ idempotencyDispatch .POST (some "c232ab00-9414-11ec-b3c8-9f68deced846") none 201
        = ⟨201, none, true⟩ := by
  constructor
  · decide
  · decide

/-- `ERROR_STATUS_MAPPING` (`src/shared/utils/errors.py`): error code →
HTTP status; unknown codes default to 500 (`get(code, 500)`). -/
def errorHttpStatus (code : String) : ℕ :=
  if code = "VALIDATION_ERROR" then 400
  else if code = "NOT_FOUND" then 404
  else if code = "UNAUTHORIZED" then 401
  else if code = "FORBIDDEN" then 403
  else if code = "CONFLICT" then 409
  else if code = "RATE_LIMITED" then 429
  else if code = "INSUFFICIENT_FUNDS" then 400
  else if code = "INVALID_ACCOUNT" then 400
  else if code = "INVALID_AMOUNT" then 400
  else if code = "PAYMENT_EXPIRED" then 410
  else if code = "PAYMENT_CANCELLED" then 409
  else if code = "DUPLICATE_PAYMENT" then 409
  else if code = "SETTLEMENT_FAILED" then 500
  else if code = "BATCH_CLOSED" then 409
  else if code = "NETTING_ERROR" then 500
  else if code = "LIQUIDITY_UNAVAILABLE" then 503
  else if code = "RISK_THRESHOLD_EXCEEDED" then 403
  else if code = "RISK_ASSESSMENT_FAILED" then 500
  else if code = "HIGH_RISK_TRANSACTION" then 403
  else if code = "SANCTIONS_VIOLATION" then 403
  else if code = "PEP_VIOLATION" then 403
  else if code = "TRAVEL_RULE_VIOLATION" then 400
  else if code = "INCOMPLETE_KYC" then 400
  else if code = "COMPLIANCE_CHECK_FAILED" then 500
  else if code = "BLOCK_VALIDATION_FAILED" then 500
  else if code = "CONSENSUS_FAILED" then 500
  else if code = "INVALID_SIGNATURE" then 400
  else if code = "DOUBLE_SPEND" then 409
  else if code = "EXTERNAL_SERVICE_ERROR" then 502
  else if code = "TIMEOUT_ERROR" then 504
  else if code = "NETWORK_ERROR" then 502
  else if code = "INTERNAL_ERROR" then 500
  else 500

/-- A persisted `payments` row (the columns the initiation path touches). -/
structure PaymentRow where
  transaction_id : String
  idempotency_key : String
  amount : String
  currency : String
  debtor_account : String
  creditor_account : String
  status : String
deriving DecidableEq, Repr

/-- Modelled from the spec: the `payments` table enforces uniqueness of
`idempotency_key` (invariant I5; the DDL itself is not in the sources), so
`insert_returning` — a plain `INSERT … RETURNING *` with no `ON CONFLICT`
clause (`src/shared/clients/postgres_client.py`) — raises a unique-violation
exception exactly when a row with the same idempotency key already exists. -/
def insertPaymentReturning (rows : List PaymentRow) (row : PaymentRow) :
    Except Unit (List PaymentRow) :=
  if rows.any fun r => r.idempotency_key == row.idempotency_key then .error ()
  else .ok (rows ++ [row])

/-- Outcome of `initiate_payment`: HTTP status, error code of the raised
`DeltranError` (if any), resulting `payments` rows, and whether
`payment.initiated` was published. -/
structure InitiateOutcome where
  status : ℕ
  errorCode : Option String
  rows : List PaymentRow
  published : Bool
deriving DecidableEq, Repr

/-- `initiate_payment` (`src/gateway/api/payments.py`). `parsedAmount` is the
result of Python's `float(request.amount)` (`none` when it raises
`ValueError`). Control flow of the source: an empty (falsy) amount string
raises `ValidationError` (400); a non-parsing amount raises `ValueError`
inside the validation, which the generic `except Exception` handler turns
into `PaymentError(INTERNAL_ERROR)` (500); a non-positive amount or a
currency whose length is not 3 raises `ValidationError` (400); an insert
conflict raises `UniqueViolation`, likewise caught as INTERNAL_ERROR (500);
otherwise the row is inserted, `payment.initiated` is published and the row
ids are returned. -/
def initiatePayment (amountStr : String) (parsedAmount : Option ℚ)
    (currency debtor creditor idemKey txid : String)
    (rows : List PaymentRow) : InitiateOutcome :=
  if amountStr = "" then
    ⟨errorHttpStatus "VALIDATION_ERROR", some "VALIDATION_ERROR", rows, false⟩
  else
    match parsedAmount with
    | none => ⟨errorHttpStatus "INTERNAL_ERROR", some "INTERNAL_ERROR", rows, false⟩
    | some a =>
        if a ≤ 0 then
          ⟨errorHttpStatus "VALIDATION_ERROR", some "VALIDATION_ERROR", rows, false⟩
        else if currency.length ≠ 3 then
          ⟨errorHttpStatus "VALIDATION_ERROR", some "VALIDATION_ERROR", rows, false⟩
        else
          match insertPaymentReturning rows
              ⟨txid, idemKey, amountStr, currency, debtor, creditor, "INITIATED"⟩ with
          | .error _ =>
              ⟨errorHttpStatus "INTERNAL_ERROR", some "INTERNAL_ERROR", rows, false⟩
          | .ok rows' => ⟨200, none, rows', true⟩

/-- Number of payment rows bearing idempotency key `k`. -/
def rowCountWithKey (rows : List PaymentRow) (k : String) : ℕ :=
  (rows.filter fun r => r.idempotency_key == k).length

/-- C10: when the amount string is non-empty but does not parse as a float,
initiation fails with INTERNAL_ERROR and HTTP 500 (not VALIDATION_ERROR/400),
no payments row is inserted, and no `payment.initiated` event is published. -/
theorem initiate_unparseable_amount_internal_error
    (amountStr : String) (currency debtor creditor idemKey txid : String)
    (rows : List PaymentRow)
    (hne : amountStr ≠ "") :
    initiatePayment amountStr none currency debtor creditor idemKey txid rows
      = ⟨500, some "INTERNAL_ERROR", rows, false⟩ := by
  unfold initiatePayment
  rw [if_neg hne]
  rfl

/-- C10 witness: the amount string "abc" with no parse result yields 500
INTERNAL_ERROR and leaves an empty store empty, publishing nothing. -/
theorem initiate_unparseable_amount_internal_error_witness :
    initiatePayment "abc" none "USD" "A" "B" "550e8400-e29b-41d4-a716-446655440000" "tx1" []
      = ⟨500, some "INTERNAL_ERROR", [], false⟩ :=
  initiate_unparseable_amount_internal_error "abc" "USD" "A" "B"
    "550e8400-e29b-41d4-a716-446655440000" "tx1" [] (by decide)

/-- C5 counterexample: with a row bearing key K already present, a repeated
Initiate under K does not return the existing row as a success — it fails
with INTERNAL_ERROR (500), because `insert_returning` issues a plain INSERT
with no ON CONFLICT clause and the unique violation is caught by the generic
exception handler. -/
theorem initiate_conflict_counterexample :
    initiatePayment "100.00" (some 100) "USD" "A" "B" "K1" "tx2"
        [⟨"tx1", "K1", "100.00", "USD", "A", "B", "INITIATED"⟩]
      = ⟨500, some "INTERNAL_ERROR",
          [⟨"tx1", "K1", "100.00", "USD", "A", "B", "INITIATED"⟩], false⟩ := by
  unfold initiatePayment insertPaymentReturning errorHttpStatus
  have hl : ("USD" : String).length = 3 := by decide
  norm_num [hl]
  decide

/-- C5 (amended): under a valid request (non-empty parsing positive amount,
3-letter currency), if a row bearing the idempotency key already exists then
Initiate fails with INTERNAL_ERROR (500), inserts nothing and publishes
nothing; and at most one row per idempotency key is preserved: if the store
held at most one row with key K, it still does afterwards. -/
theorem initiate_conflict_and_uniqueness
    (amountStr : String) (a : ℚ) (currency debtor creditor idemKey txid : String)
    (rows : List PaymentRow)
    (hne : amountStr ≠ "") (hpos : 0 < a) (hcur : currency.length = 3) :
    ((rows.any fun r => r.idempotency_key == idemKey) = true →
        initiatePayment amountStr (some a) currency debtor creditor idemKey txid rows
          = ⟨500, some "INTERNAL_ERROR", rows, false⟩)
    ∧ (rowCountWithKey rows idemKey ≤ 1 →
        rowCountWithKey
          (initiatePayment amountStr (some a) currency debtor creditor idemKey txid rows).rows
          idemKey ≤ 1) := by
  have hnotle : ¬(a ≤ 0) := not_le.mpr hpos
  have hc3 : ¬(currency.length ≠ 3) := by simp [hcur]
  have hout_conf : (rows.any fun r => r.idempotency_key == idemKey) = true →
      initiatePayment amountStr (some a) currency debtor creditor idemKey txid rows
        = ⟨500, some "INTERNAL_ERROR", rows, false⟩ := by
    intro hconf
    unfold initiatePayment insertPaymentReturning
    rw [if_neg hne]
    simp only [hnotle, if_false]
    rw [if_neg hc3, if_pos hconf]
    simp [errorHttpStatus, String.reduceEq]
  have hout_ok : (rows.any fun r => r.idempotency_key == idemKey) = false →
      initiatePayment amountStr (some a) currency debtor creditor idemKey txid rows
        = ⟨200, none,
            rows ++ [⟨txid, idemKey, amountStr, currency, debtor, creditor, "INITIATED"⟩],
            true⟩ := by
    intro hconf
    unfold initiatePayment insertPaymentReturning
    rw [if_neg hne]
    simp only [hnotle, if_false]
    rw [if_neg hc3]
    simp [hconf]
  refine ⟨hout_conf, ?_⟩
  intro hle
  cases hconf : rows.any fun r => r.idempotency_key == idemKey with
  | false =>
      rw [hout_ok hconf]
      have h0 : rowCountWithKey rows idemKey = 0 := by
        unfold rowCountWithKey
        rw [List.length_eq_zero]
        rw [List.filter_eq_nil_iff]
        intro r hr
        intro hkey
        have : rows.any (fun r => r.idempotency_key == idemKey) = true :=
          List.any_eq_true.mpr ⟨r, hr, hkey⟩
        rw [hconf] at this
        exact absurd this (by simp)
      unfold rowCountWithKey at h0 ⊢
      rw [List.filter_append, List.length_append, h0]
      simp
  | true =>
      rw [hout_conf hconf]
      exact hle

/-- C5 witness: the amended theorem instantiated at a one-row store whose row
bears the requested key. -/
theorem initiate_conflict_and_uniqueness_witness :
    initiatePayment "100.00" (some 100) "USD" "A" "B" "K1" "tx2"
        [⟨"tx1", "K1", "100.00", "USD", "A", "B", "INITIATED"⟩]
      = ⟨500, some "INTERNAL_ERROR",
          [⟨"tx1", "K1", "100.00", "USD", "A", "B", "INITIATED"⟩], false⟩ :=
  (initiate_conflict_and_uniqueness "100.00" 100 "USD" "A" "B" "K1" "tx2"
      [⟨"tx1", "K1", "100.00", "USD", "A", "B", "INITIATED"⟩]
      (by decide) (by norm_num) (by decide)).1 (by decide)

inductive RiskMode
  | Low
  | Medium
  | High
deriving DecidableEq, Repr

/-- One row of `RISK_THRESHOLDS` (`src/gateway/api/risk.py`). -/
structure RiskThresholdsR where
  spread_threshold : ℝ
  depth_threshold : ℝ
  deviation_threshold : ℝ
  latency_threshold_ms : ℝ
  volume_threshold_usd : ℝ

/-- `RISK_THRESHOLDS` table (`src/gateway/api/risk.py`). -/
noncomputable def riskThresholds : RiskMode → RiskThresholdsR
  | .Low => ⟨0.001, 1000000, 0.05, 100, 10000000⟩
  | .Medium => ⟨0.005, 500000, 0.10, 200, 5000000⟩
  | .High => ⟨0.01, 100000, 0.20, 500, 1000000⟩

/-- One `liquidity_quotes` row as read by `_calculate_risk_metrics`
(floats modelled as reals). -/
structure QuoteRow where
  spread : ℝ
  amount : ℝ
  latency_ms : ℝ

/-- The `RiskMetrics` record returned by `_calculate_risk_metrics`. -/
structure RiskMetricsR where
  spread : ℝ
  depth : ℝ
  deviation : ℝ
  latency_ms : ℤ
  volume_24h_usd : ℝ
  risk_score : ℝ

/-- Python `int()` on a float: truncation toward zero. -/
noncomputable def pyIntTrunc (x : ℝ) : ℤ := if 0 ≤ x then ⌊x⌋ else ⌈x⌉

noncomputable def avgSpread (quotes : List QuoteRow) : ℝ :=
  ((quotes.map fun q => q.spread).sum) / ((quotes.map fun q => q.spread).length : ℝ)

noncomputable def avgLatency (quotes : List QuoteRow) : ℝ :=
  ((quotes.map fun q => q.latency_ms).sum) / ((quotes.map fun q => q.latency_ms).length : ℝ)

noncomputable def totalVolume (quotes : List QuoteRow) : ℝ :=
  (quotes.map fun q => q.amount).sum

/-- The `deviation` computation of `_calculate_risk_metrics`: population
stddev of the spreads over their mean when there are at least two samples and
the mean is positive (0 on a non-positive mean); 0.05 with fewer than two
samples. -/
noncomputable def spreadDeviation (quotes : List QuoteRow) : ℝ :=
  if 1 < (quotes.map fun q => q.spread).length then
    if 0 < avgSpread quotes then
      Real.sqrt
        (((quotes.map fun q => q.spread).map fun s => (s - avgSpread quotes)^2).sum
          / ((quotes.map fun q => q.spread).length : ℝ))
        / avgSpread quotes
    else 0
  else 0.05

open Classical in
/-- The four threshold-breach additions of `_calculate_risk_metrics`
(+25 per breached threshold). -/
noncomputable def breachScore (quotes : List QuoteRow) (mode : RiskMode) : ℝ :=
  (if (riskThresholds mode).spread_threshold < avgSpread quotes then 25 else 0)
  + (if (riskThresholds mode).deviation_threshold < spreadDeviation quotes then 25 else 0)
  + (if (riskThresholds mode).latency_threshold_ms < avgLatency quotes then 25 else 0)
  + (if (riskThresholds mode).volume_threshold_usd < totalVolume quotes then 25 else 0)

/-- `_calculate_risk_metrics` (`src/gateway/api/risk.py`): with no quotes in
the window, a hardcoded default record with `risk_score = 25.0`; otherwise
the aggregates with the per-breach score. -/
noncomputable def calculateRiskMetrics (quotes : List QuoteRow) (mode : RiskMode) :
    RiskMetricsR :=
  if quotes.isEmpty then ⟨0.002, 1000000, 0.05, 80, 5000000, 25.0⟩
  else
    ⟨avgSpread quotes, totalVolume quotes, spreadDeviation quotes,
      pyIntTrunc (avgLatency quotes), totalVolume quotes, breachScore quotes mode⟩

open Classical in
/-- Number of breached thresholds among the aggregated spread, deviation,
latency and volume, written from the specification text. -/
noncomputable def breachCount (quotes : List QuoteRow) (mode : RiskMode) : ℕ :=
  (if (riskThresholds mode).spread_threshold < avgSpread quotes then 1 else 0)
  + (if (riskThresholds mode).deviation_threshold < spreadDeviation quotes then 1 else 0)
  + (if (riskThresholds mode).latency_threshold_ms < avgLatency quotes then 1 else 0)
  + (if (riskThresholds mode).volume_threshold_usd < totalVolume quotes then 1 else 0)

open Classical in
/-- Number of breached thresholds among the metric values of a returned
record, written from the specification text. -/
noncomputable def metricsBreachCount (m : RiskMetricsR) (mode : RiskMode) : ℕ :=
  (if (riskThresholds mode).spread_threshold < m.spread then 1 else 0)
  + (if (riskThresholds mode).deviation_threshold < m.deviation then 1 else 0)
  + (if (riskThresholds mode).latency_threshold_ms < (m.latency_ms : ℝ) then 1 else 0)
  + (if (riskThresholds mode).volume_threshold_usd < m.volume_24h_usd then 1 else 0)

/-- C8 counterexample: with zero quotes recorded in the last hour (under the
default Medium mode), the returned record hardcodes `risk_score = 25`, while
none of the four thresholds is breached by the returned metric values — so
the score is not 25 times the number of breached thresholds. -/
theorem risk_metrics_empty_counterexample :
    (calculateRiskMetrics [] .Medium).risk_score = 25
    ∧ metricsBreachCount (calculateRiskMetrics [] .Medium) .Medium = 0
    ∧ (calculateRiskMetrics [] .Medium).risk_score
        ≠ 25 * (metricsBreachCount (calculateRiskMetrics [] .Medium) .Medium : ℝ) := by
  have hm : calculateRiskMetrics [] .Medium = ⟨0.002, 1000000, 0.05, 80, 5000000, 25.0⟩ := by
    unfold calculateRiskMetrics
    rfl
  rw [hm]
  refine ⟨by norm_num, ?_, ?_⟩
  · unfold metricsBreachCount riskThresholds
    norm_num
  · unfold metricsBreachCount riskThresholds
    norm_num

/-- C8 (amended): with at least one recorded quote the risk score equals 25
times the number of breached thresholds (hence lies in {0, 25, 50, 75, 100}),
and with exactly one sample the deviation is 0.05; with zero recorded quotes
the hardcoded default record (deviation 0.05, risk_score 25) is returned
regardless of breaches. -/
theorem risk_metrics_score (quotes : List QuoteRow) (mode : RiskMode) :
    (quotes = [] →
        calculateRiskMetrics quotes mode = ⟨0.002, 1000000, 0.05, 80, 5000000, 25.0⟩)
    ∧ (quotes ≠ [] →
        (calculateRiskMetrics quotes mode).risk_score = 25 * (breachCount quotes mode : ℝ)
        ∧ (calculateRiskMetrics quotes mode).risk_score ∈ ({0, 25, 50, 75, 100} : Set ℝ)
        ∧ (quotes.length = 1 → (calculateRiskMetrics quotes mode).deviation = 0.05)) := by
  constructor
  · intro h
    subst h
    unfold calculateRiskMetrics
    rfl
  · intro hne
    have hie : quotes.isEmpty = false := by
      cases quotes with
      | nil => exact absurd rfl hne
      | cons q rest => rfl
    have hm : calculateRiskMetrics quotes mode
        = ⟨avgSpread quotes, totalVolume quotes, spreadDeviation quotes,
            pyIntTrunc (avgLatency quotes), totalVolume quotes, breachScore quotes mode⟩ := by
      unfold calculateRiskMetrics
      rw [hie]
      simp
    rw [hm]
    refine ⟨?_, ?_, ?_⟩
    · unfold breachScore breachCount
      by_cases h1 : (riskThresholds mode).spread_threshold < avgSpread quotes <;>
        by_cases h2 : (riskThresholds mode).deviation_threshold < spreadDeviation quotes <;>
          by_cases h3 : (riskThresholds mode).latency_threshold_ms < avgLatency quotes <;>
            by_cases h4 : (riskThresholds mode).volume_threshold_usd < totalVolume quotes <;>
              simp [h1, h2, h3, h4] <;> norm_num
    · unfold breachScore
      by_cases h1 : (riskThresholds mode).spread_threshold < avgSpread quotes <;>
        by_cases h2 : (riskThresholds mode).deviation_threshold < spreadDeviation quotes <;>
          by_cases h3 : (riskThresholds mode).latency_threshold_ms < avgLatency quotes <;>
            by_cases h4 : (riskThresholds mode).volume_threshold_usd < totalVolume quotes <;>
              simp [h1, h2, h3, h4, Set.mem_insert_iff] <;> norm_num
    · intro hlen
      unfold spreadDeviation
      have : (quotes.map fun q => q.spread).length = 1 := by simp [hlen]
      rw [this]
      norm_num

/-- C8 witness: a single-quote window in Medium mode; the score equals 25
times the breach count. -/
theorem risk_metrics_score_witness :
    (calculateRiskMetrics [⟨0.002, 100, 50⟩] .Medium).risk_score
      = 25 * (breachCount [⟨0.002, 100, 50⟩] .Medium : ℝ) :=
  ((risk_metrics_score [⟨0.002, 100, 50⟩] .Medium).2 (by simp)).1
